import Mathlib

/-!
Verification of the context-aware worker pool `RunWorkerPool`
(`go/worker`, context variant) and the helper `utils.Clamp`.

The Go function is embedded as a small-step transition system:

* `Clamp`, `effectiveWorkers`, `numWorkers` embed the worker-count
  computation `maxWorkers = utils.Clamp(tasksLen, 1, maxWorkers)` and the
  subsequent `for range maxWorkers` goroutine spawn (a non-positive Go
  `int` range count spawns zero goroutines, hence `Int.toNat`).
* `GoMap` embeds the worker-local `map[K]V`; `fn` is embedded in
  state-passing style `Bool → T → GoMap K V → Option ε × GoMap K V`, the
  `Bool` being the cancellation status of the context observed by the
  call, the `Option ε` its returned `error` (`none` = `nil`).
* `Config` is the runtime state of one pool invocation: the buffered
  channels `tasksChan` (`taskBuf`/`taskClosed`, capacity `len tasks`) and
  `errorsChan` (`outBuf`/`outClosed`, capacity `len tasks`), the worker
  goroutines (`workers`), the dispatcher goroutine (`dispatched`,
  `dispDone`), the collector's accumulator `collected`, and the
  cancellation flag of the surrounding context.  The fields `log`,
  `finLog`, `outs`, `nils`, `vals` are ghost history variables: they never
  occur in a step's side condition and only record, respectively, the
  tasks dequeued (in dequeue order), the tasks whose `fn` call returned
  (in completion order), every outcome ever sent on `errorsChan` (in send
  order), and how many collector reads hit the closed empty channel
  versus a buffered value.
* `Step` has one constructor per atomic transition of the Go code,
  including the nondeterminism of `select` (when both a case and
  `ctx.Done()` are ready, either branch may be chosen) and an external
  `cancel` transition for the caller's context being cancelled.
* Receiving from a closed empty Go channel yields the zero value, which
  for `error` is `nil`: constructor `collectClosed` appends `none`.
-/

namespace WorkerPool

/-- Embeds `utils.Clamp` (`go/utils`): `min(max(value, minValue), maxValue)`,
generic over ordered types exactly as the Go generic over `cmp.Ordered`. -/
def Clamp {α : Type} [LinearOrder α] (value minValue maxValue : α) : α :=
  min (max value minValue) maxValue

/-- Embeds line `maxWorkers = utils.Clamp(tasksLen, 1, maxWorkers)` of the
context-aware `RunWorkerPool`: the reassigned `maxWorkers` value, as a Go
`int` (so `Int`). -/
def effectiveWorkers (tasksLen : Nat) (maxWorkers : Int) : Int :=
  Clamp (tasksLen : Int) 1 maxWorkers

/-- Number of worker goroutines actually spawned by `for range maxWorkers`:
a Go `range` over a non-positive `int` performs zero iterations. -/
def numWorkers (tasksLen : Nat) (maxWorkers : Int) : Nat :=
  (effectiveWorkers tasksLen maxWorkers).toNat

/-- Embeds the worker-local Go `map[K]V` as an association list; later
insertions shadow earlier ones. -/
abbrev GoMap (K V : Type) := List (K × V)

/-- `make(map[K]V)`: the empty map. -/
def GoMap.empty {K V : Type} : GoMap K V := []

/-- Go map assignment `m[k] = v`. -/
def GoMap.insert {K V : Type} (m : GoMap K V) (k : K) (v : V) : GoMap K V :=
  (k, v) :: m

/-- Go map read `m[k]` with the type's zero value `d` for a missing key. -/
def GoMap.getD {K V : Type} [DecidableEq K] (m : GoMap K V) (k : K) (d : V) : V :=
  match m with
  | [] => d
  | (k2, v) :: rest => if k2 = k then v else GoMap.getD rest k d

/-- Status of one worker goroutine: `idle` = blocked in its `select` with
private store `store`; `busy` = executing `fn` on `task` having entered
with store `store`; `exited` = returned. -/
inductive WStatus (T K V : Type) where
  | idle (store : GoMap K V)
  | busy (task : T) (store : GoMap K V)
  | exited
deriving DecidableEq

/-- Runtime state of one `RunWorkerPool` invocation (non-empty-task path).
See the module docstring for the reading of each field; fields `log`,
`finLog`, `outs`, `nils`, `vals` are ghost history variables. -/
structure Config (T K V ε : Type) where
  cancelled : Bool
  dispatched : Nat
  dispDone : Bool
  taskBuf : List T
  taskClosed : Bool
  outBuf : List (Option ε)
  outClosed : Bool
  workers : List (WStatus T K V)
  collected : List (Option ε)
  log : List T
  finLog : List T
  outs : List (Option ε)
  nils : Nat
  vals : Nat
deriving DecidableEq

/-- The tasks currently being executed, one per `busy` worker. -/
def busyTasks {T K V : Type} (ws : List (WStatus T K V)) : List T :=
  ws.filterMap fun w =>
    match w with
    | .busy t _ => some t
    | _ => none

variable {T K V ε : Type}

/-- One atomic transition of the pool.  `tasks` is the input slice, `fn`
the task function (first argument: cancellation status it observes). -/
inductive Step (tasks : List T) (fn : Bool → T → GoMap K V → Option ε × GoMap K V) :
    Config T K V ε → Config T K V ε → Prop where
  /-- The caller's context gets cancelled (external event). -/
  | cancel (c : Config T K V ε) (h : c.cancelled = false) :
      Step tasks fn c { c with cancelled := true }
  /-- Dispatcher `select` sends the next task on `tasksChan` (ready since
  the buffer is below capacity; chosen even if `ctx.Done()` is also ready). -/
  | dispatchSend (c : Config T K V ε) (h1 : c.dispDone = false)
      (h2 : c.dispatched < tasks.length) (h3 : c.taskBuf.length < tasks.length) :
      Step tasks fn c { c with
        taskBuf := c.taskBuf ++ [tasks.get ⟨c.dispatched, h2⟩],
        dispatched := c.dispatched + 1 }
  /-- Dispatcher `select` takes the `ctx.Done()` branch mid-loop and
  returns; `defer close(tasksChan)` runs. -/
  | dispatchCancelled (c : Config T K V ε) (h1 : c.dispDone = false)
      (h2 : c.dispatched < tasks.length) (h3 : c.cancelled = true) :
      Step tasks fn c { c with dispDone := true, taskClosed := true }
  /-- Dispatcher loop exhausts `tasks` and returns; `defer close(tasksChan)`
  runs. -/
  | dispatchClose (c : Config T K V ε) (h1 : c.dispDone = false)
      (h2 : c.dispatched = tasks.length) :
      Step tasks fn c { c with dispDone := true, taskClosed := true }
  /-- An idle worker's `select` receives a buffered task (`ok = true`);
  chosen even if `ctx.Done()` is also ready. -/
  | workerTake (c : Config T K V ε) (pre post : List (WStatus T K V))
      (s : GoMap K V) (t : T) (rest : List T)
      (hw : c.workers = pre ++ WStatus.idle s :: post)
      (hb : c.taskBuf = t :: rest) :
      Step tasks fn c { c with
        workers := pre ++ WStatus.busy t s :: post,
        taskBuf := rest,
        log := c.log ++ [t] }
  /-- A busy worker's call to `fn` returns and the worker sends the outcome
  on `errorsChan` (below capacity, so the send completes). -/
  | workerFinish (c : Config T K V ε) (pre post : List (WStatus T K V))
      (s : GoMap K V) (t : T)
      (hw : c.workers = pre ++ WStatus.busy t s :: post)
      (hcap : c.outBuf.length < tasks.length) :
      Step tasks fn c { c with
        workers := pre ++ WStatus.idle (fn c.cancelled t s).2 :: post,
        outBuf := c.outBuf ++ [(fn c.cancelled t s).1],
        outs := c.outs ++ [(fn c.cancelled t s).1],
        finLog := c.finLog ++ [t] }
  /-- An idle worker's `select` takes the `ctx.Done()` branch and returns. -/
  | workerCtxDone (c : Config T K V ε) (pre post : List (WStatus T K V))
      (s : GoMap K V)
      (hw : c.workers = pre ++ WStatus.idle s :: post)
      (hc : c.cancelled = true) :
      Step tasks fn c { c with workers := pre ++ WStatus.exited :: post }
  /-- An idle worker receives from the closed, drained `tasksChan`
  (`ok = false`) and returns. -/
  | workerChanClosed (c : Config T K V ε) (pre post : List (WStatus T K V))
      (s : GoMap K V)
      (hw : c.workers = pre ++ WStatus.idle s :: post)
      (hcl : c.taskClosed = true) (hemp : c.taskBuf = []) :
      Step tasks fn c { c with workers := pre ++ WStatus.exited :: post }
  /-- The supervisory goroutine: `wg.Wait()` returns once every worker has
  exited, then `close(errorsChan)`. -/
  | closeOutcomes (c : Config T K V ε)
      (h : ∀ w ∈ c.workers, w = WStatus.exited) (h2 : c.outClosed = false) :
      Step tasks fn c { c with outClosed := true }
  /-- Collector `<-errorsChan` receives a buffered outcome. -/
  | collectValue (c : Config T K V ε) (o : Option ε) (rest : List (Option ε))
      (hn : c.collected.length < tasks.length)
      (hb : c.outBuf = o :: rest) :
      Step tasks fn c { c with
        collected := c.collected ++ [o], outBuf := rest, vals := c.vals + 1 }
  /-- Collector `<-errorsChan` on the closed empty channel yields the zero
  value of `error`, i.e. `nil`. -/
  | collectClosed (c : Config T K V ε)
      (hn : c.collected.length < tasks.length)
      (hb : c.outBuf = []) (hcl : c.outClosed = true) :
      Step tasks fn c { c with
        collected := c.collected ++ [none], nils := c.nils + 1 }

/-- State at the start of the non-empty-task path: channels empty and open,
`numWorkers` freshly spawned workers each holding `make(map[K]V)`, nothing
dispatched or collected, context not (yet) cancelled. -/
def initConfig (tasks : List T) (maxWorkers : Int) : Config T K V ε :=
  { cancelled := false
    dispatched := 0
    dispDone := false
    taskBuf := []
    taskClosed := false
    outBuf := []
    outClosed := false
    workers := List.replicate (numWorkers tasks.length maxWorkers) (WStatus.idle GoMap.empty)
    collected := []
    log := []
    finLog := []
    outs := []
    nils := 0
    vals := 0 }

/-- A configuration the pool invocation can be in. -/
def Reachable (tasks : List T) (fn : Bool → T → GoMap K V → Option ε × GoMap K V)
    (maxWorkers : Int) (c : Config T K V ε) : Prop :=
  Relation.ReflTransGen (Step tasks fn) (initConfig tasks maxWorkers) c

/-- The collector loop `for range tasks { errs = append(errs, <-errorsChan) }`
has finished: the function returns `c.collected`. -/
abbrev Terminal (tasks : List T) (c : Config T K V ε) : Prop :=
  c.collected.length = tasks.length

/-- Top-level relational embedding of `RunWorkerPool`: `errs` is a possible
return value and `invoked` the number of `fn` calls that completed in that
run.  The `tasks.length = 0` branch embeds the early `return []error{}`
(which allocates a non-nil empty slice and spawns nothing). -/
def RunWorkerPoolRel (tasks : List T)
    (fn : Bool → T → GoMap K V → Option ε × GoMap K V) (maxWorkers : Int)
    (errs : List (Option ε)) (invoked : Nat) : Prop :=
  if tasks.length = 0 then errs = [] ∧ invoked = 0
  else ∃ c : Config T K V ε, Reachable tasks fn maxWorkers c ∧ Terminal tasks c ∧
    c.collected = errs ∧ c.outs.length = invoked

/-- Sequential reference computation: apply `fn` (with an uncancelled
context) to the tasks in order, threading one store through all of them;
returns the outcome list in task order together with the final store. -/
def procTasks (fn : Bool → T → GoMap K V → Option ε × GoMap K V) :
    List T → GoMap K V → List (Option ε) × GoMap K V
  | [], s => ([], s)
  | t :: ts, s =>
    let r := fn false t s
    let rest := procTasks fn ts r.2
    (r.1 :: rest.1, rest.2)

/-! ### List helper lemmas -/

/-- If index `i` of `l` holds `x`, then `l` splits as
`take i ++ x :: drop (i+1)`. -/
theorem list_decomp {α : Type} (l : List α) (i : Nat) (x : α)
    (h : l[i]? = some x) : l = l.take i ++ x :: l.drop (i + 1) := by
  induction l generalizing i with
  | nil => simp at h
  | cons a as ih =>
    cases i with
    | zero => simp_all
    | succ j =>
      simp only [List.getElem?_cons_succ] at h
      simpa using ih j h

/-- `List.set` at a valid index in split form. -/
theorem list_set_decomp {α : Type} (l : List α) (i : Nat) (y : α)
    (h : i < l.length) : l.set i y = l.take i ++ y :: l.drop (i + 1) := by
  induction l generalizing i with
  | nil => simp at h
  | cons a as ih =>
    cases i with
    | zero => simp
    | succ j =>
      simp only [List.set_cons_succ, List.take_succ_cons, List.drop_succ_cons,
        List.cons_append]
      congr 1
      exact ih j (by simpa using h)

/-- If `drop k` of `l` starts with `t`, then `take (k+1)` of `l` extends
`take k` by `[t]`. -/
theorem take_succ_of_drop {α : Type} (l : List α) (k : Nat) (t : α)
    (rest : List α) (h : l.drop k = t :: rest) :
    l.take (k + 1) = l.take k ++ [t] := by
  induction l generalizing k with
  | nil => simp at h
  | cons a as ih =>
    cases k with
    | zero => simp_all
    | succ j =>
      simp only [List.drop_succ_cons] at h
      simp only [List.take_succ_cons, List.cons_append]
      congr 1
      exact ih j h

/-! ### Scheduler-driven execution (for constructing concrete traces) -/

/-- A scheduling decision: which goroutine's ready action fires next.
Worker actions carry the worker's index. -/
inductive Choice where
  | cancel
  | dsend
  | dcancel
  | dclose
  | take (i : Nat)
  | finish (i : Nat)
  | wdone (i : Nat)
  | wclosed (i : Nat)
  | closeOut
  | collect
deriving DecidableEq

/-- Apply one scheduling decision to a configuration, doing nothing when the
corresponding transition is not enabled.  `collect` resolves to a buffered
receive when possible, otherwise to the closed-channel receive. -/
def applyChoice (tasks : List T) (fn : Bool → T → GoMap K V → Option ε × GoMap K V)
    (ch : Choice) (c : Config T K V ε) : Config T K V ε :=
  match ch with
  | .cancel => if c.cancelled = false then { c with cancelled := true } else c
  | .dsend =>
    if h : c.dispDone = false ∧ c.dispatched < tasks.length ∧
        c.taskBuf.length < tasks.length then
      { c with taskBuf := c.taskBuf ++ [tasks.get ⟨c.dispatched, h.2.1⟩],
               dispatched := c.dispatched + 1 }
    else c
  | .dcancel =>
    if c.dispDone = false ∧ c.dispatched < tasks.length ∧ c.cancelled = true then
      { c with dispDone := true, taskClosed := true }
    else c
  | .dclose =>
    if c.dispDone = false ∧ c.dispatched = tasks.length then
      { c with dispDone := true, taskClosed := true }
    else c
  | .take i =>
    match c.workers[i]? with
    | some (.idle s) =>
      match c.taskBuf with
      | t :: rest =>
        { c with workers := c.workers.set i (WStatus.busy t s),
                 taskBuf := rest, log := c.log ++ [t] }
      | [] => c
    | _ => c
  | .finish i =>
    match c.workers[i]? with
    | some (.busy t s) =>
      if c.outBuf.length < tasks.length then
        { c with workers := c.workers.set i (WStatus.idle (fn c.cancelled t s).2),
                 outBuf := c.outBuf ++ [(fn c.cancelled t s).1],
                 outs := c.outs ++ [(fn c.cancelled t s).1],
                 finLog := c.finLog ++ [t] }
      else c
    | _ => c
  | .wdone i =>
    match c.workers[i]? with
    | some (.idle _) =>
      if c.cancelled = true then { c with workers := c.workers.set i WStatus.exited }
      else c
    | _ => c
  | .wclosed i =>
    match c.workers[i]? with
    | some (.idle _) =>
      match c.taskBuf with
      | [] =>
        if c.taskClosed = true then
          { c with workers := c.workers.set i WStatus.exited }
        else c
      | _ :: _ => c
    | _ => c
  | .closeOut =>
    if (c.workers.all fun w => match w with | .exited => true | _ => false) ∧
        c.outClosed = false then
      { c with outClosed := true }
    else c
  | .collect =>
    if c.collected.length < tasks.length then
      match c.outBuf with
      | o :: rest =>
        { c with collected := c.collected ++ [o], outBuf := rest, vals := c.vals + 1 }
      | [] =>
        if c.outClosed = true then
          { c with collected := c.collected ++ [none], nils := c.nils + 1 }
        else c
    else c

/-- Every scheduling decision either does nothing or performs a `Step`. -/
theorem applyChoice_sound (tasks : List T)
    (fn : Bool → T → GoMap K V → Option ε × GoMap K V)
    (ch : Choice) (c : Config T K V ε) :
    applyChoice tasks fn ch c = c ∨ Step tasks fn c (applyChoice tasks fn ch c) := by
  cases ch with
  | cancel =>
    by_cases h : c.cancelled = false
    · exact Or.inr (by simpa [applyChoice, h] using Step.cancel c h)
    · exact Or.inl (by simp [applyChoice, h])
  | dsend =>
    by_cases h : c.dispDone = false ∧ c.dispatched < tasks.length ∧
        c.taskBuf.length < tasks.length
    · refine Or.inr ?_
      simpa [applyChoice, h] using Step.dispatchSend c h.1 h.2.1 h.2.2
    · exact Or.inl (by simp [applyChoice, h])
  | dcancel =>
    by_cases h : c.dispDone = false ∧ c.dispatched < tasks.length ∧ c.cancelled = true
    · refine Or.inr ?_
      simpa [applyChoice, h] using Step.dispatchCancelled c h.1 h.2.1 h.2.2
    · exact Or.inl (by simp [applyChoice, h])
  | dclose =>
    by_cases h : c.dispDone = false ∧ c.dispatched = tasks.length
    · refine Or.inr ?_
      simpa [applyChoice, h] using Step.dispatchClose c h.1 h.2
    · exact Or.inl (by simp [applyChoice, h])
  | take i =>
    match hw : c.workers[i]? with
    | some (.idle s) =>
      match hb : c.taskBuf with
      | t :: rest =>
        refine Or.inr ?_
        have hlt : i < c.workers.length := by
          have := List.getElem?_eq_some.mp hw
          exact this.1
        have hdec := list_decomp c.workers i (WStatus.idle s) hw
        have hset := list_set_decomp c.workers i (WStatus.busy t s) hlt
        have hstep : Step tasks fn c _ := Step.workerTake c
          (c.workers.take i) (c.workers.drop (i + 1)) s t rest hdec hb
        simpa [applyChoice, hw, hb, hset] using hstep
      | [] => exact Or.inl (by simp [applyChoice, hw, hb])
    | some (.busy t s) => exact Or.inl (by simp [applyChoice, hw])
    | some .exited => exact Or.inl (by simp [applyChoice, hw])
    | none => exact Or.inl (by simp [applyChoice, hw])
  | finish i =>
    match hw : c.workers[i]? with
    | some (.busy t s) =>
      by_cases hcap : c.outBuf.length < tasks.length
      · refine Or.inr ?_
        have hlt : i < c.workers.length := (List.getElem?_eq_some.mp hw).1
        have hdec := list_decomp c.workers i (WStatus.busy t s) hw
        have hset := list_set_decomp c.workers i
          (WStatus.idle (fn c.cancelled t s).2) hlt
        have hstep : Step tasks fn c _ := Step.workerFinish c
          (c.workers.take i) (c.workers.drop (i + 1)) s t hdec hcap
        simpa [applyChoice, hw, hcap, hset] using hstep
      · exact Or.inl (by simp [applyChoice, hw, hcap])
    | some (.idle s) => exact Or.inl (by simp [applyChoice, hw])
    | some .exited => exact Or.inl (by simp [applyChoice, hw])
    | none => exact Or.inl (by simp [applyChoice, hw])
  | wdone i =>
    match hw : c.workers[i]? with
    | some (.idle s) =>
      by_cases hc : c.cancelled = true
      · refine Or.inr ?_
        have hlt : i < c.workers.length := (List.getElem?_eq_some.mp hw).1
        have hdec := list_decomp c.workers i (WStatus.idle s) hw
        have hset := list_set_decomp c.workers i WStatus.exited hlt
        have hstep : Step tasks fn c _ := Step.workerCtxDone c
          (c.workers.take i) (c.workers.drop (i + 1)) s hdec hc
        simpa [applyChoice, hw, hc, hset] using hstep
      · exact Or.inl (by simp [applyChoice, hw, hc])
    | some (.busy t s) => exact Or.inl (by simp [applyChoice, hw])
    | some .exited => exact Or.inl (by simp [applyChoice, hw])
    | none => exact Or.inl (by simp [applyChoice, hw])
  | wclosed i =>
    match hw : c.workers[i]? with
    | some (.idle s) =>
      match hb : c.taskBuf with
      | [] =>
        by_cases hc : c.taskClosed = true
        · refine Or.inr ?_
          have hlt : i < c.workers.length := (List.getElem?_eq_some.mp hw).1
          have hdec := list_decomp c.workers i (WStatus.idle s) hw
          have hset := list_set_decomp c.workers i WStatus.exited hlt
          have hstep : Step tasks fn c _ := Step.workerChanClosed c
            (c.workers.take i) (c.workers.drop (i + 1)) s hdec hc hb
          simpa [applyChoice, hw, hb, hc, hset] using hstep
        · exact Or.inl (by simp [applyChoice, hw, hb, hc])
      | t :: rest => exact Or.inl (by simp [applyChoice, hw, hb])
    | some (.busy t s) => exact Or.inl (by simp [applyChoice, hw])
    | some .exited => exact Or.inl (by simp [applyChoice, hw])
    | none => exact Or.inl (by simp [applyChoice, hw])
  | closeOut =>
    by_cases h : (c.workers.all fun w => match w with | .exited => true | _ => false) ∧
        c.outClosed = false
    · refine Or.inr ?_
      have hall : ∀ w ∈ c.workers, w = WStatus.exited := by
        intro w hwmem
        have := List.all_eq_true.mp h.1 w hwmem
        cases w <;> simp_all
      simpa [applyChoice, h] using Step.closeOutcomes c hall h.2
    · exact Or.inl (by simp only [applyChoice]; rw [if_neg h])
  | collect =>
    by_cases hn : c.collected.length < tasks.length
    · match hb : c.outBuf with
      | o :: rest =>
        refine Or.inr ?_
        simpa [applyChoice, hn, hb] using Step.collectValue c o rest hn hb
      | [] =>
        by_cases hcl : c.outClosed = true
        · refine Or.inr ?_
          simpa [applyChoice, hn, hb, hcl] using Step.collectClosed c hn hb hcl
        · exact Or.inl (by simp [applyChoice, hn, hb, hcl])
    · exact Or.inl (by simp [applyChoice, hn])

/-- Run a whole schedule. -/
def runSched (tasks : List T) (fn : Bool → T → GoMap K V → Option ε × GoMap K V) :
    List Choice → Config T K V ε → Config T K V ε
  | [], c => c
  | ch :: rest, c => runSched tasks fn rest (applyChoice tasks fn ch c)

/-- Running a schedule only moves along `Step`s. -/
theorem runSched_sound (tasks : List T)
    (fn : Bool → T → GoMap K V → Option ε × GoMap K V)
    (l : List Choice) (c : Config T K V ε) :
    Relation.ReflTransGen (Step tasks fn) c (runSched tasks fn l c) := by
  induction l generalizing c with
  | nil => exact Relation.ReflTransGen.refl
  | cons ch rest ih =>
    rcases applyChoice_sound tasks fn ch c with h | h
    · simpa [runSched, h] using ih (applyChoice tasks fn ch c)
    · exact Relation.ReflTransGen.head h (ih (applyChoice tasks fn ch c))

/-- Any configuration produced by a schedule from the initial state is
reachable. -/
theorem runSched_reachable (tasks : List T)
    (fn : Bool → T → GoMap K V → Option ε × GoMap K V) (maxWorkers : Int)
    (l : List Choice) :
    Reachable tasks fn maxWorkers
      (runSched tasks fn l (initConfig tasks maxWorkers)) :=
  runSched_sound tasks fn l (initConfig tasks maxWorkers)

/-! ### The global invariant -/

/-- No worker status survives `busyTasks` as `some` except `busy`. -/
theorem busyTasks_append (l1 l2 : List (WStatus T K V)) :
    busyTasks (l1 ++ l2) = busyTasks l1 ++ busyTasks l2 := by
  simp [busyTasks]

theorem busyTasks_replicate_idle (m : Nat) (s : GoMap K V) :
    busyTasks (List.replicate m (WStatus.idle s) : List (WStatus T K V)) = [] := by
  induction m with
  | zero => rfl
  | succ j ih => simp [List.replicate_succ, busyTasks, ih]

/-- Invariant of every reachable configuration: channel contents are the
expected slices of the dispatch/outcome history, histories are consistent
with the worker statuses, and closing happens in the documented order. -/
structure Inv (tasks : List T) (maxWorkers : Int) (c : Config T K V ε) : Prop where
  disp_le : c.dispatched ≤ tasks.length
  log_le : c.log.length ≤ c.dispatched
  log_prefix : c.log = tasks.take c.log.length
  buf_slice : c.taskBuf = (tasks.take c.dispatched).drop c.log.length
  closed_iff : c.taskClosed = c.dispDone
  disp_done : c.dispDone = true → c.dispatched = tasks.length ∨ c.cancelled = true
  wlen : c.workers.length = numWorkers tasks.length maxWorkers
  fin_perm : (c.finLog ++ busyTasks c.workers).Perm c.log
  outs_fin : c.outs.length = c.finLog.length
  out_split_buf : c.outBuf = c.outs.drop c.vals
  out_split_col : c.collected = c.outs.take c.vals ++ List.replicate c.nils none
  vals_le : c.vals ≤ c.outs.length
  col_le : c.collected.length ≤ tasks.length
  nils_closed : c.nils ≠ 0 → c.outClosed = true ∧ c.outBuf = []
  oclosed_exited : c.outClosed = true → ∀ w ∈ c.workers, w = WStatus.exited
  exited_drained : c.cancelled = false →
    (∃ w ∈ c.workers, w = WStatus.exited) → c.log.length = tasks.length

/-- The initial configuration satisfies the invariant. -/
theorem inv_init (tasks : List T) (maxWorkers : Int) :
    Inv tasks maxWorkers (initConfig tasks maxWorkers : Config T K V ε) := by
  refine
    { disp_le := Nat.zero_le _
      log_le := Nat.le_refl _
      log_prefix := rfl
      buf_slice := by simp [initConfig]
      closed_iff := rfl
      disp_done := by intro h; simp [initConfig] at h
      wlen := by simp [initConfig]
      fin_perm := by simp [initConfig, busyTasks_replicate_idle]
      outs_fin := rfl
      out_split_buf := rfl
      out_split_col := rfl
      vals_le := Nat.le_refl _
      col_le := Nat.zero_le _
      nils_closed := by intro h; simp [initConfig] at h
      oclosed_exited := by intro h; simp [initConfig] at h
      exited_drained := ?_ }
  intro _ hex
  rcases hex with ⟨w, hmem, hex⟩
  rw [initConfig] at hmem
  simp only [List.mem_replicate] at hmem
  rw [hmem.2] at hex
  exact absurd hex (by simp)

/-- The invariant is preserved by every step. -/
theorem inv_step {tasks : List T} {fn : Bool → T → GoMap K V → Option ε × GoMap K V}
    {maxWorkers : Int} {c c' : Config T K V ε}
    (inv : Inv tasks maxWorkers c) (st : Step tasks fn c c') :
    Inv tasks maxWorkers c' := by
  cases st with
  | cancel h =>
    exact { inv with
      disp_done := fun _ => Or.inr rfl
      exited_drained := by intro hc; simp at hc }
  | dispatchSend h1 h2 h3 =>
    have htake : tasks.take (c.dispatched + 1) =
        tasks.take c.dispatched ++ [tasks.get ⟨c.dispatched, h2⟩] := by
      refine take_succ_of_drop tasks c.dispatched _ (tasks.drop (c.dispatched + 1)) ?_
      exact List.drop_eq_getElem_cons h2
    refine { inv with
      disp_le := h2
      log_le := Nat.le_succ_of_le inv.log_le
      buf_slice := ?_
      disp_done := by intro hd; rw [h1] at hd; exact absurd hd (by simp) }
    rw [htake, List.drop_append_of_le_length
      (by rw [List.length_take]
          exact le_min inv.log_le (le_trans inv.log_le inv.disp_le)),
      inv.buf_slice]
  | dispatchCancelled h1 h2 h3 =>
    exact { inv with
      closed_iff := rfl
      disp_done := fun _ => Or.inr h3
      exited_drained := by intro hc; rw [h3] at hc; exact absurd hc (by simp) }
  | dispatchClose h1 h2 =>
    exact { inv with
      closed_iff := rfl
      disp_done := fun _ => Or.inl h2 }
  | workerTake pre post s t rest hw hb =>
    have hlen_take : (tasks.take c.dispatched).length = c.dispatched := by
      simp [Nat.min_eq_left inv.disp_le]
    have hk_lt : c.log.length < c.dispatched := by
      by_contra hge
      push_neg at hge
      have hnil : (tasks.take c.dispatched).drop c.log.length = [] := by
        refine List.drop_eq_nil_of_le ?_
        rw [hlen_take]; exact hge
      rw [← inv.buf_slice, hb] at hnil
      exact absurd hnil (by simp)
    have hts : (tasks.take c.dispatched).take (c.log.length + 1) =
        (tasks.take c.dispatched).take c.log.length ++ [t] := by
      refine take_succ_of_drop _ _ _ rest ?_
      rw [← inv.buf_slice]; exact hb
    have htt : tasks.take (c.log.length + 1) = c.log ++ [t] := by
      have h1 : (tasks.take c.dispatched).take (c.log.length + 1) =
          tasks.take (c.log.length + 1) := by
        rw [List.take_take, Nat.min_eq_left hk_lt]
      have h2 : (tasks.take c.dispatched).take c.log.length =
          tasks.take c.log.length := by
        rw [List.take_take, Nat.min_eq_left (Nat.le_of_lt hk_lt)]
      rw [h1, h2] at hts
      rw [hts, ← inv.log_prefix]
    refine
      { disp_le := inv.disp_le
        log_le := by simpa using hk_lt
        log_prefix := by simpa using htt.symm
        buf_slice := ?_
        closed_iff := inv.closed_iff
        disp_done := inv.disp_done
        wlen := by
          have := inv.wlen
          rw [hw] at this
          simpa using this
        fin_perm := ?_
        outs_fin := inv.outs_fin
        out_split_buf := inv.out_split_buf
        out_split_col := inv.out_split_col
        vals_le := inv.vals_le
        col_le := inv.col_le
        nils_closed := inv.nils_closed
        oclosed_exited := ?_
        exited_drained := ?_ }
    · have hdrop : (tasks.take c.dispatched).drop (c.log.length + 1) = rest := by
        have hdd : (tasks.take c.dispatched).drop (c.log.length + 1) =
            ((tasks.take c.dispatched).drop c.log.length).drop 1 := by
          rw [List.drop_drop, Nat.add_comm]
        rw [hdd, ← inv.buf_slice, hb]
        simp
      simpa using hdrop.symm
    · have hperm := inv.fin_perm
      rw [hw, busyTasks_append] at hperm
      simp only [busyTasks, List.filterMap_cons] at hperm
      show (c.finLog ++ busyTasks (pre ++ WStatus.busy t s :: post)).Perm (c.log ++ [t])
      rw [busyTasks_append]
      simp only [busyTasks, List.filterMap_cons]
      refine List.Perm.trans (List.Perm.append_left c.finLog List.perm_middle) ?_
      refine List.Perm.trans List.perm_middle ?_
      refine List.Perm.trans (hperm.cons t) ?_
      exact (List.perm_append_singleton t c.log).symm
    · intro hcl
      have hall := inv.oclosed_exited hcl
      have : WStatus.idle s = (WStatus.exited : WStatus T K V) := by
        refine hall _ ?_
        rw [hw]
        exact List.mem_append_right _ (List.mem_cons_self _ _)
      exact absurd this (by simp)
    · intro hc hex
      have hex0 : ∃ w ∈ c.workers, w = WStatus.exited := by
        rcases hex with ⟨w, hmem, hwex⟩
        subst hwex
        rw [hw]
        rcases List.mem_append.mp hmem with h | h
        · exact ⟨_, List.mem_append_left _ h, rfl⟩
        · rcases List.mem_cons.mp h with h | h
          · exact absurd h.symm (by simp)
          · exact ⟨_, List.mem_append_right _ (List.mem_cons_of_mem _ h), rfl⟩
      have := inv.exited_drained hc hex0
      have : c.log.length < tasks.length := Nat.lt_of_lt_of_le hk_lt inv.disp_le
      omega
  | workerFinish pre post s t hw hcap =>
    refine
      { disp_le := inv.disp_le
        log_le := inv.log_le
        log_prefix := inv.log_prefix
        buf_slice := inv.buf_slice
        closed_iff := inv.closed_iff
        disp_done := inv.disp_done
        wlen := by
          have := inv.wlen
          rw [hw] at this
          simpa using this
        fin_perm := ?_
        outs_fin := by simpa using inv.outs_fin
        out_split_buf := by
          rw [List.drop_append_of_le_length inv.vals_le, inv.out_split_buf]
        out_split_col := by
          rw [List.take_append_of_le_length inv.vals_le]
          exact inv.out_split_col
        vals_le := by
          simpa using Nat.le_succ_of_le inv.vals_le
        col_le := inv.col_le
        nils_closed := ?_
        oclosed_exited := ?_
        exited_drained := ?_ }
    · have hperm := inv.fin_perm
      rw [hw, busyTasks_append] at hperm
      simp only [busyTasks, List.filterMap_cons] at hperm
      show ((c.finLog ++ [t]) ++ busyTasks (pre ++ _ :: post)).Perm c.log
      rw [busyTasks_append]
      simp only [busyTasks, List.filterMap_cons]
      refine List.Perm.trans ?_ hperm
      rw [List.append_assoc]
      simp only [List.singleton_append]
      exact List.Perm.append_left c.finLog List.perm_middle.symm
    · intro hn
      have h := inv.nils_closed hn
      have hall := inv.oclosed_exited h.1
      have : WStatus.busy t s = (WStatus.exited : WStatus T K V) := by
        refine hall _ ?_
        rw [hw]
        exact List.mem_append_right _ (List.mem_cons_self _ _)
      exact absurd this (by simp)
    · intro hcl
      have hall := inv.oclosed_exited hcl
      have : WStatus.busy t s = (WStatus.exited : WStatus T K V) := by
        refine hall _ ?_
        rw [hw]
        exact List.mem_append_right _ (List.mem_cons_self _ _)
      exact absurd this (by simp)
    · intro hc hex
      refine inv.exited_drained hc ?_
      rcases hex with ⟨w, hmem, hwex⟩
      subst hwex
      rw [hw]
      rcases List.mem_append.mp hmem with h | h
      · exact ⟨_, List.mem_append_left _ h, rfl⟩
      · rcases List.mem_cons.mp h with h | h
        · exact absurd h.symm (by simp)
        · exact ⟨_, List.mem_append_right _ (List.mem_cons_of_mem _ h), rfl⟩
  | workerCtxDone pre post s hw hc =>
    refine
      { disp_le := inv.disp_le
        log_le := inv.log_le
        log_prefix := inv.log_prefix
        buf_slice := inv.buf_slice
        closed_iff := inv.closed_iff
        disp_done := inv.disp_done
        wlen := by
          have := inv.wlen
          rw [hw] at this
          simpa using this
        fin_perm := ?_
        outs_fin := inv.outs_fin
        out_split_buf := inv.out_split_buf
        out_split_col := inv.out_split_col
        vals_le := inv.vals_le
        col_le := inv.col_le
        nils_closed := inv.nils_closed
        oclosed_exited := ?_
        exited_drained := by intro hc2; rw [hc] at hc2; exact absurd hc2 (by simp) }
    · have hperm := inv.fin_perm
      rw [hw, busyTasks_append] at hperm
      simp only [busyTasks, List.filterMap_cons] at hperm
      show (c.finLog ++ busyTasks (pre ++ WStatus.exited :: post)).Perm c.log
      rw [busyTasks_append]
      simp only [busyTasks, List.filterMap_cons]
      exact hperm
    · intro hcl
      have hall := inv.oclosed_exited hcl
      have : WStatus.idle s = (WStatus.exited : WStatus T K V) := by
        refine hall _ ?_
        rw [hw]
        exact List.mem_append_right _ (List.mem_cons_self _ _)
      exact absurd this (by simp)
  | workerChanClosed pre post s hw hcl hemp =>
    have hdisp : c.dispatched = tasks.length ∨ c.cancelled = true := by
      refine inv.disp_done ?_
      rw [← inv.closed_iff]; exact hcl
    refine
      { disp_le := inv.disp_le
        log_le := inv.log_le
        log_prefix := inv.log_prefix
        buf_slice := inv.buf_slice
        closed_iff := inv.closed_iff
        disp_done := inv.disp_done
        wlen := by
          have := inv.wlen
          rw [hw] at this
          simpa using this
        fin_perm := ?_
        outs_fin := inv.outs_fin
        out_split_buf := inv.out_split_buf
        out_split_col := inv.out_split_col
        vals_le := inv.vals_le
        col_le := inv.col_le
        nils_closed := inv.nils_closed
        oclosed_exited := ?_
        exited_drained := ?_ }
    · have hperm := inv.fin_perm
      rw [hw, busyTasks_append] at hperm
      simp only [busyTasks, List.filterMap_cons] at hperm
      show (c.finLog ++ busyTasks (pre ++ WStatus.exited :: post)).Perm c.log
      rw [busyTasks_append]
      simp only [busyTasks, List.filterMap_cons]
      exact hperm
    · intro hcl2
      have hall := inv.oclosed_exited hcl2
      have : WStatus.idle s = (WStatus.exited : WStatus T K V) := by
        refine hall _ ?_
        rw [hw]
        exact List.mem_append_right _ (List.mem_cons_self _ _)
      exact absurd this (by simp)
    · intro hc _
      have hd : c.dispatched = tasks.length := by
        rcases hdisp with h | h
        · exact h
        · rw [hc] at h; exact absurd h (by simp)
      have hbuf := inv.buf_slice
      rw [hemp] at hbuf
      have hlen : (tasks.take c.dispatched).length ≤ c.log.length := by
        by_contra hlt
        push_neg at hlt
        have := List.drop_eq_nil_iff.mp hbuf.symm
        omega
      rw [List.length_take, hd, Nat.min_self] at hlen
      exact Nat.le_antisymm (by rw [← hd]; exact inv.log_le) hlen
  | closeOutcomes h h2 =>
    refine { inv with
      nils_closed := ?_
      oclosed_exited := fun _ => h }
    intro hn
    have := (inv.nils_closed hn).1
    rw [h2] at this
    exact absurd this (by simp)
  | collectValue o rest hn hb =>
    have hdrop : c.outs.drop c.vals = o :: rest := by rw [← inv.out_split_buf]; exact hb
    have hvlt : c.vals < c.outs.length := by
      by_contra hge
      push_neg at hge
      have hnil : c.outs.drop c.vals = [] := List.drop_eq_nil_of_le hge
      rw [hnil] at hdrop
      exact absurd hdrop.symm (by simp)
    have hnils : c.nils = 0 := by
      by_contra hnz
      have := (inv.nils_closed hnz).2
      rw [hb] at this
      exact absurd this (by simp)
    have htake : c.outs.take (c.vals + 1) = c.outs.take c.vals ++ [o] :=
      take_succ_of_drop _ _ _ rest hdrop
    refine
      { disp_le := inv.disp_le
        log_le := inv.log_le
        log_prefix := inv.log_prefix
        buf_slice := inv.buf_slice
        closed_iff := inv.closed_iff
        disp_done := inv.disp_done
        wlen := inv.wlen
        fin_perm := inv.fin_perm
        outs_fin := inv.outs_fin
        out_split_buf := ?_
        out_split_col := ?_
        vals_le := hvlt
        col_le := by simpa using hn
        nils_closed := by
          intro hnz
          rw [hnils] at hnz
          exact absurd hnz (by simp)
        oclosed_exited := inv.oclosed_exited
        exited_drained := inv.exited_drained }
    · show rest = c.outs.drop (c.vals + 1)
      have : c.outs.drop (c.vals + 1) = (c.outs.drop c.vals).drop 1 := by
        rw [List.drop_drop, Nat.add_comm]
      rw [this, hdrop]
      simp
    · show c.collected ++ [o] = c.outs.take (c.vals + 1) ++ List.replicate c.nils none
      rw [htake, inv.out_split_col, hnils]
      simp
  | collectClosed hn hb hcl =>
    refine
      { disp_le := inv.disp_le
        log_le := inv.log_le
        log_prefix := inv.log_prefix
        buf_slice := inv.buf_slice
        closed_iff := inv.closed_iff
        disp_done := inv.disp_done
        wlen := inv.wlen
        fin_perm := inv.fin_perm
        outs_fin := inv.outs_fin
        out_split_buf := inv.out_split_buf
        out_split_col := ?_
        vals_le := inv.vals_le
        col_le := by simpa using hn
        nils_closed := fun _ => ⟨hcl, hb⟩
        oclosed_exited := inv.oclosed_exited
        exited_drained := inv.exited_drained }
    show c.collected ++ [none] = c.outs.take c.vals ++ List.replicate (c.nils + 1) none
    rw [inv.out_split_col, List.replicate_succ', List.append_assoc]

/-! ### Progress: a terminal configuration is always reachable -/

/-- Remaining work of one worker. -/
def wWeight : WStatus T K V → Nat
  | .busy _ _ => 2
  | .idle _ => 1
  | .exited => 0

/-- Remaining work of all workers. -/
def workersWeight (ws : List (WStatus T K V)) : Nat :=
  (ws.map wWeight).sum

theorem workersWeight_append (l1 l2 : List (WStatus T K V)) :
    workersWeight (l1 ++ l2) = workersWeight l1 + workersWeight l2 := by
  simp [workersWeight]

/-- Termination measure for the completion argument. -/
def poolMeasure (tasks : List T) (c : Config T K V ε) : Nat :=
  (if c.dispDone = true then 0 else 4 * (tasks.length - c.dispatched) + 1)
    + 3 * c.taskBuf.length + workersWeight c.workers
    + (if c.outClosed = true then 0 else 1)
    + (tasks.length - c.collected.length)

/-- Either every worker has exited, or some worker is idle, or some worker
is busy (with an explicit decomposition). -/
theorem find_nonexited (ws : List (WStatus T K V)) :
    (∀ w ∈ ws, w = WStatus.exited) ∨
    (∃ pre s post, ws = pre ++ WStatus.idle s :: post) ∨
    (∃ pre t s post, ws = pre ++ WStatus.busy t s :: post) := by
  induction ws with
  | nil => exact Or.inl (by simp)
  | cons w rest ih =>
    cases w with
    | idle s => exact Or.inr (Or.inl ⟨[], s, rest, rfl⟩)
    | busy t s => exact Or.inr (Or.inr ⟨[], t, s, rest, rfl⟩)
    | exited =>
      rcases ih with hall | ⟨pre, s, post, hdec⟩ | ⟨pre, t, s, post, hdec⟩
      · refine Or.inl ?_
        intro x hx
        rcases List.mem_cons.mp hx with h | h
        · exact h
        · exact hall x h
      · exact Or.inr (Or.inl ⟨WStatus.exited :: pre, s, post, by rw [hdec]; rfl⟩)
      · exact Or.inr (Or.inr ⟨WStatus.exited :: pre, t, s, post, by rw [hdec]; rfl⟩)

/-- Completion, by induction on the measure: from any configuration
satisfying the invariant, some sequence of steps reaches a terminal
configuration (the pool can always return, whatever cancellation did). -/
theorem progress_aux {tasks : List T}
    {fn : Bool → T → GoMap K V → Option ε × GoMap K V} {maxWorkers : Int}
    (N : Nat) :
    ∀ c : Config T K V ε, Inv tasks maxWorkers c →
      poolMeasure tasks c ≤ N →
      ∃ c', Relation.ReflTransGen (Step tasks fn) c c' ∧ Terminal tasks c' := by
  induction N with
  | zero =>
    intro c hInv hμ
    refine ⟨c, Relation.ReflTransGen.refl, ?_⟩
    have hcol : tasks.length - c.collected.length = 0 := by
      have h0 : poolMeasure tasks c = 0 := Nat.le_zero.mp hμ
      rw [poolMeasure] at h0
      omega
    exact Nat.le_antisymm hInv.col_le (by omega)
  | succ N ih =>
    intro c hInv hμ
    by_cases hT : Terminal tasks c
    · exact ⟨c, Relation.ReflTransGen.refl, hT⟩
    have hcol_lt : c.collected.length < tasks.length :=
      Nat.lt_of_le_of_ne hInv.col_le hT
    -- helper to close each branch
    have closeStep : ∀ c₁ : Config T K V ε, Step tasks fn c c₁ →
        poolMeasure tasks c₁ < poolMeasure tasks c →
        ∃ c', Relation.ReflTransGen (Step tasks fn) c c' ∧ Terminal tasks c' := by
      intro c₁ hstep hlt
      obtain ⟨c', hrtg, hT'⟩ := ih c₁ (inv_step hInv hstep) (by omega)
      exact ⟨c', Relation.ReflTransGen.head hstep hrtg, hT'⟩
    by_cases hd : c.dispDone = true
    · -- dispatcher finished; tasksChan is closed
      have hcl : c.taskClosed = true := by rw [hInv.closed_iff]; exact hd
      rcases find_nonexited c.workers with hall | ⟨pre, s, post, hw⟩ | ⟨pre, t, s, post, hw⟩
      · -- all workers exited: close errorsChan, then collect
        by_cases hoc : c.outClosed = true
        · cases hob : c.outBuf with
          | nil =>
            refine closeStep _ (Step.collectClosed c hcol_lt hob hoc) ?_
            simp only [poolMeasure, hd, hoc]
            simp
            omega
          | cons o rest =>
            refine closeStep _ (Step.collectValue c o rest hcol_lt hob) ?_
            simp only [poolMeasure, hd, hoc]
            simp [hob]
            omega
        · refine closeStep _ (Step.closeOutcomes c hall (by simpa using hoc)) ?_
          simp only [poolMeasure, hd, hoc]
          simp
      · -- an idle worker: feed it or let it see the closed channel
        cases hb : c.taskBuf with
        | nil =>
          refine closeStep _ (Step.workerChanClosed c pre post s hw hcl hb) ?_
          simp only [poolMeasure, hd, hw]
          rw [workersWeight_append, workersWeight_append]
          simp [workersWeight, wWeight]
        | cons t rest =>
          refine closeStep _ (Step.workerTake c pre post s t rest hw hb) ?_
          simp only [poolMeasure, hd, hw, hb]
          rw [workersWeight_append, workersWeight_append]
          simp [workersWeight, wWeight]
          omega
      · -- a busy worker: its fn call returns and the outcome is sent
        have hcap : c.outBuf.length < tasks.length := by
          have hlen := hInv.fin_perm.length_eq
          rw [List.length_append, hw, busyTasks_append] at hlen
          simp only [busyTasks, List.filterMap_cons, List.length_append] at hlen
          have hlog_n : c.log.length ≤ tasks.length :=
            le_trans hInv.log_le hInv.disp_le
          have hob : c.outBuf.length ≤ c.outs.length - c.vals := by
            rw [hInv.out_split_buf]; simp
          have houts := hInv.outs_fin
          simp at hlen
          omega
        refine closeStep _ (Step.workerFinish c pre post s t hw hcap) ?_
        simp only [poolMeasure, hd, hw]
        rw [workersWeight_append, workersWeight_append]
        simp [workersWeight, wWeight]
    · -- dispatcher still running
      by_cases hlt : c.dispatched < tasks.length
      · have h3 : c.taskBuf.length < tasks.length := by
          rw [hInv.buf_slice]
          simp only [List.length_drop, List.length_take]
          omega
        refine closeStep _
          (Step.dispatchSend c (by simpa using hd) hlt h3) ?_
        simp only [poolMeasure, hd]
        simp
        omega
      · have heq : c.dispatched = tasks.length :=
          Nat.le_antisymm hInv.disp_le (by omega)
        refine closeStep _ (Step.dispatchClose c (by simpa using hd) heq) ?_
        simp only [poolMeasure, hd, heq]
        simp

/-- From any reachable configuration the pool can reach a terminal
configuration. -/
theorem progress {tasks : List T}
    {fn : Bool → T → GoMap K V → Option ε × GoMap K V} {maxWorkers : Int}
    (c : Config T K V ε) (hInv : Inv tasks maxWorkers c) :
    ∃ c', Relation.ReflTransGen (Step tasks fn) c c' ∧ Terminal tasks c' :=
  progress_aux (poolMeasure tasks c) c hInv (Nat.le_refl _)

/-- Every reachable configuration satisfies the invariant. -/
theorem inv_reachable {tasks : List T}
    {fn : Bool → T → GoMap K V → Option ε × GoMap K V} {maxWorkers : Int}
    {c : Config T K V ε} (h : Reachable tasks fn maxWorkers c) :
    Inv tasks maxWorkers c := by
  induction h with
  | refl => exact inv_init tasks maxWorkers
  | tail _ hstep ih => exact inv_step ih hstep

/-! ### Runs in which the context is never cancelled -/

theorem busyTasks_eq_nil_of_all_exited {ws : List (WStatus T K V)}
    (h : ∀ w ∈ ws, w = WStatus.exited) : busyTasks ws = [] := by
  induction ws with
  | nil => rfl
  | cons w rest ih =>
    have hw := h w (List.mem_cons_self _ _)
    subst hw
    have := ih fun x hx => h x (List.mem_cons_of_mem _ hx)
    simpa [busyTasks] using this

/-- In a run without cancellation that spawned at least one worker, the
collector never reads from a closed empty channel: every collected entry
is a genuine outcome of `fn`. -/
theorem nc_nils {tasks : List T} {maxWorkers : Int} {c : Config T K V ε}
    (hInv : Inv tasks maxWorkers c) (hc : c.cancelled = false)
    (hw : 0 < numWorkers tasks.length maxWorkers) : c.nils = 0 := by
  by_contra hnz
  obtain ⟨hoc, hob⟩ := hInv.nils_closed hnz
  have hall := hInv.oclosed_exited hoc
  have hne : c.workers ≠ [] := by
    intro h0
    have hwl := hInv.wlen
    rw [h0] at hwl
    simp at hwl
    omega
  obtain ⟨w0, hw0⟩ := List.exists_mem_of_ne_nil c.workers hne
  have hex : ∃ w ∈ c.workers, w = WStatus.exited := ⟨w0, hw0, hall w0 hw0⟩
  have hlogn := hInv.exited_drained hc hex
  have hbt : busyTasks c.workers = [] := busyTasks_eq_nil_of_all_exited hall
  have hfl : c.finLog.length = tasks.length := by
    have := hInv.fin_perm.length_eq
    rw [hbt] at this
    simp at this
    omega
  have houts : c.outs.length = tasks.length := by rw [hInv.outs_fin, hfl]
  have hvals : c.vals = tasks.length := by
    have hdrop := hInv.out_split_buf
    rw [hob] at hdrop
    have : c.outs.length ≤ c.vals := by
      exact List.drop_eq_nil_iff.mp hdrop.symm
    have := hInv.vals_le
    omega
  have hcol := congrArg List.length hInv.out_split_col
  rw [List.length_append, List.length_take, List.length_replicate] at hcol
  have := hInv.col_le
  omega

/-- Facts about a terminal configuration of an uncancelled run with at
least one worker: every task was dispatched, executed exactly once, and
every collected entry is an outcome of `fn`. -/
theorem nc_terminal_facts {tasks : List T} {maxWorkers : Int}
    {c : Config T K V ε}
    (hInv : Inv tasks maxWorkers c) (hc : c.cancelled = false)
    (hw : 0 < numWorkers tasks.length maxWorkers)
    (hT : Terminal tasks c) :
    c.vals = tasks.length ∧ c.outs.length = tasks.length ∧
      c.collected = c.outs ∧ c.log = tasks ∧ c.finLog.Perm tasks ∧
      busyTasks c.workers = [] := by
  have hnils : c.nils = 0 := nc_nils hInv hc hw
  have hcol := congrArg List.length hInv.out_split_col
  rw [List.length_append, List.length_take, List.length_replicate, hnils] at hcol
  have hTn : c.collected.length = tasks.length := hT
  have hvals : c.vals = tasks.length := by
    have := hInv.vals_le
    omega
  have hperm_len := hInv.fin_perm.length_eq
  rw [List.length_append] at hperm_len
  have hlog_le : c.log.length ≤ tasks.length := le_trans hInv.log_le hInv.disp_le
  have houts_ge : tasks.length ≤ c.outs.length := by omega
  have houts : c.outs.length = tasks.length := by
    have := hInv.outs_fin
    omega
  have hbt_len : (busyTasks c.workers).length = 0 := by
    have := hInv.outs_fin
    omega
  have hbt : busyTasks c.workers = [] := List.length_eq_zero.mp hbt_len
  have hlogn : c.log.length = tasks.length := by
    have := hInv.outs_fin
    omega
  have hlog : c.log = tasks := by
    rw [hInv.log_prefix, hlogn, List.take_length]
  have hfin : c.finLog.Perm tasks := by
    have hp := hInv.fin_perm
    rw [hbt, List.append_nil, hlog] at hp
    exact hp
  have hcolout : c.collected = c.outs := by
    rw [hInv.out_split_col, hnils, hvals, ← houts]
    simp
  exact ⟨hvals, houts, hcolout, hlog, hfin, hbt⟩

/-- If `fn`'s returned error ignores the store and the cancellation flag
(`g` gives it), the outcome history is exactly `g` mapped over the
completed tasks: the pool passes `fn`'s error values through unmodified. -/
theorem outs_map {tasks : List T}
    {fn : Bool → T → GoMap K V → Option ε × GoMap K V} {maxWorkers : Int}
    {c : Config T K V ε} (g : T → Option ε)
    (hg : ∀ b t s, (fn b t s).1 = g t)
    (h : Reachable tasks fn maxWorkers c) : c.outs = c.finLog.map g := by
  induction h with
  | refl => rfl
  | tail _ hstep ih =>
    cases hstep with
    | workerFinish pre post s t hw hcap => simp [ih, hg]
    | cancel h => exact ih
    | dispatchSend h1 h2 h3 => exact ih
    | dispatchCancelled h1 h2 h3 => exact ih
    | dispatchClose h1 h2 => exact ih
    | workerTake pre post s t rest hw hb => exact ih
    | workerCtxDone pre post s hw hc => exact ih
    | workerChanClosed pre post s hw hcl hemp => exact ih
    | closeOutcomes h h2 => exact ih
    | collectValue o rest hn hb => exact ih
    | collectClosed hn hb hcl => exact ih

/-- Cancellation is monotone, so a finally-uncancelled run was never
cancelled. -/
theorem step_cancelled_back {tasks : List T}
    {fn : Bool → T → GoMap K V → Option ε × GoMap K V} {c c' : Config T K V ε}
    (hstep : Step tasks fn c c') (h : c'.cancelled = false) :
    c.cancelled = false := by
  cases hstep <;> first
    | exact h
    | (rename_i hx; simp at h)

/-! ### Single-worker runs execute tasks sequentially in order -/

theorem procTasks_append (fn : Bool → T → GoMap K V → Option ε × GoMap K V)
    (l : List T) (t : T) (s : GoMap K V) :
    procTasks fn (l ++ [t]) s =
      ((procTasks fn l s).1 ++ [(fn false t (procTasks fn l s).2).1],
        (fn false t (procTasks fn l s).2).2) := by
  induction l generalizing s with
  | nil => simp [procTasks]
  | cons a as ih => simp [procTasks, ih]

/-- Invariant of single-worker uncancelled runs: the worker's private
store and the outcome history are exactly those of the sequential
reference computation `procTasks` on the tasks dequeued so far. -/
def soloInv (fn : Bool → T → GoMap K V → Option ε × GoMap K V)
    (c : Config T K V ε) : Prop :=
  c.workers.length = 1 ∧
  (∀ s, c.workers = [WStatus.idle s] →
    c.finLog = c.log ∧ c.outs = (procTasks fn c.log GoMap.empty).1 ∧
      s = (procTasks fn c.log GoMap.empty).2) ∧
  (∀ t s, c.workers = [WStatus.busy t s] →
    c.log = c.finLog ++ [t] ∧ c.outs = (procTasks fn c.finLog GoMap.empty).1 ∧
      s = (procTasks fn c.finLog GoMap.empty).2) ∧
  (c.workers = [WStatus.exited] →
    c.finLog = c.log ∧ c.outs = (procTasks fn c.log GoMap.empty).1)

theorem solo_singleton {ws : List (WStatus T K V)} {pre post : List (WStatus T K V)}
    {x : WStatus T K V} (hlen : ws.length = 1) (hw : ws = pre ++ x :: post) :
    pre = [] ∧ post = [] ∧ ws = [x] := by
  have hl := congrArg List.length hw
  rw [hlen] at hl
  simp only [List.length_append, List.length_cons] at hl
  have hpre : pre = [] := List.length_eq_zero.mp (by omega)
  have hpost : post = [] := List.length_eq_zero.mp (by omega)
  subst hpre hpost
  simpa using hw

/-- The single-worker invariant holds along every uncancelled run. -/
theorem soloInv_reachable {tasks : List T}
    {fn : Bool → T → GoMap K V → Option ε × GoMap K V} {maxWorkers : Int}
    {c : Config T K V ε}
    (hw1 : numWorkers tasks.length maxWorkers = 1)
    (h : Reachable tasks fn maxWorkers c) (hc : c.cancelled = false) :
    soloInv fn c := by
  induction h with
  | refl =>
    refine ⟨by simp [initConfig, hw1], ?_, ?_, ?_⟩
    · intro s hs
      rw [initConfig, hw1] at hs
      simp only [List.replicate_succ, List.replicate_zero, List.cons.injEq,
        and_true, WStatus.idle.injEq] at hs
      exact ⟨rfl, rfl, hs.symm⟩
    · intro t s hs
      rw [initConfig, hw1] at hs
      simp [List.replicate_succ] at hs
    · intro hs
      rw [initConfig, hw1] at hs
      simp [List.replicate_succ] at hs
  | tail hr hstep ih =>
    rename_i cmid cend
    have hcmid : cmid.cancelled = false := step_cancelled_back hstep hc
    have hsolo := ih hcmid
    obtain ⟨hlen, hidle, hbusy, hexited⟩ := hsolo
    cases hstep with
    | cancel h => simp at hc
    | dispatchSend h1 h2 h3 =>
      exact ⟨hlen, hidle, hbusy, hexited⟩
    | dispatchCancelled h1 h2 h3 =>
      exact ⟨hlen, hidle, hbusy, hexited⟩
    | dispatchClose h1 h2 =>
      exact ⟨hlen, hidle, hbusy, hexited⟩
    | workerTake pre post s t rest hw hb =>
      obtain ⟨hpre, hpost, hws⟩ := solo_singleton hlen hw
      subst hpre hpost
      obtain ⟨hfl, houts, hs⟩ := hidle s hws
      refine ⟨by simp, ?_, ?_, ?_⟩
      · intro s2 hs2
        simp at hs2
      · intro t2 s2 hs2
        simp only [List.nil_append, List.cons.injEq, and_true,
          WStatus.busy.injEq] at hs2
        obtain ⟨ht2, hseq⟩ := hs2
        subst ht2
        subst hseq
        exact ⟨by rw [hfl], by rw [hfl]; exact houts, by rw [hfl]; exact hs⟩
      · intro hs2
        simp at hs2
    | workerFinish pre post s t hw hcap =>
      obtain ⟨hpre, hpost, hws⟩ := solo_singleton hlen hw
      subst hpre hpost
      obtain ⟨hlog, houts, hs⟩ := hbusy t s hws
      refine ⟨by simp, ?_, ?_, ?_⟩
      · intro s2 hs2
        simp only [List.nil_append, List.cons.injEq, and_true,
          WStatus.idle.injEq] at hs2
        subst hs2
        constructor
        · rw [hlog]
        constructor
        · rw [hlog, procTasks_append, houts, hs, hcmid]
        · rw [hlog, procTasks_append, hs, hcmid]
      · intro t2 s2 hs2
        simp at hs2
      · intro hs2
        simp at hs2
    | workerCtxDone pre post s hw hcdone =>
      rw [hcmid] at hcdone
      simp at hcdone
    | workerChanClosed pre post s hw hcl hemp =>
      obtain ⟨hpre, hpost, hws⟩ := solo_singleton hlen hw
      subst hpre hpost
      obtain ⟨hfl, houts, hs⟩ := hidle s hws
      refine ⟨by simp, ?_, ?_, ?_⟩
      · intro s2 hs2
        simp at hs2
      · intro t2 s2 hs2
        simp at hs2
      · intro hs2
        exact ⟨hfl, houts⟩
    | closeOutcomes h h2 =>
      exact ⟨hlen, hidle, hbusy, hexited⟩
    | collectValue o rest hn hb =>
      exact ⟨hlen, hidle, hbusy, hexited⟩
    | collectClosed hn hb hcl =>
      exact ⟨hlen, hidle, hbusy, hexited⟩

/-- Single-worker, uncancelled, terminal: the returned sequence is exactly
`procTasks` applied to the whole task list — `fn` applied to the tasks in
submission order with one persistent store. -/
theorem solo_terminal_collected {tasks : List T}
    {fn : Bool → T → GoMap K V → Option ε × GoMap K V} {maxWorkers : Int}
    {c : Config T K V ε}
    (hw1 : numWorkers tasks.length maxWorkers = 1)
    (h : Reachable tasks fn maxWorkers c) (hT : Terminal tasks c)
    (hc : c.cancelled = false) :
    c.collected = (procTasks fn tasks GoMap.empty).1 := by
  have hInv := inv_reachable h
  have hfacts := nc_terminal_facts hInv hc (by omega) hT
  obtain ⟨hvals, houts, hcolout, hlog, hfin, hbt⟩ := hfacts
  obtain ⟨hlen, hidle, hbusy, hexited⟩ := soloInv_reachable hw1 h hc
  rcases hws : c.workers with _ | ⟨w, rest⟩
  · rw [hws] at hlen
    simp at hlen
  · have hrest : rest = [] := by
      rw [hws] at hlen
      simpa using hlen
    subst hrest
    cases w with
    | idle s =>
      obtain ⟨_, houts2, _⟩ := hidle s hws
      rw [hcolout, houts2, hlog]
    | busy t s =>
      rw [hws] at hbt
      simp [busyTasks] at hbt
    | exited =>
      obtain ⟨_, houts2⟩ := hexited hws
      rw [hcolout, houts2, hlog]

/-! ### Concrete instances used by witnesses -/

/-- A concrete task function for witnesses: returns the task as its
"error" and leaves the store unchanged. -/
def wfnNat : Bool → Nat → GoMap Nat Nat → Option Nat × GoMap Nat Nat :=
  fun _ t s => (some t, s)

/-- Schedule of a complete zero-worker run over one task with
`maxWorkers = 0`. -/
def c3sched : List Choice :=
  [Choice.dsend, Choice.dclose, Choice.closeOut, Choice.collect]

/-- Terminal configuration of the zero-worker run. -/
def c3run : Config Nat Nat Nat Nat :=
  runSched [0] wfnNat c3sched (initConfig [0] 0)

/-! (C6 run: defined after `fnCounter` below.) -/

/-- Complete single-worker run over `[3, 4]`. -/
def c10sched : List Choice :=
  [Choice.dsend, Choice.dsend, Choice.dclose, Choice.take 0, Choice.finish 0,
    Choice.take 0, Choice.finish 0, Choice.wclosed 0, Choice.closeOut,
    Choice.collect, Choice.collect]

def c10run : Config Nat Nat Nat Nat :=
  runSched [3, 4] wfnNat c10sched (initConfig [3, 4] 1)

/-- A run over one task in which the context is cancelled while the task
sits in the queue: the configuration right after cancellation. -/
def c9mid : Config Nat Nat Nat Nat :=
  runSched [0] wfnNat [Choice.dsend, Choice.cancel] (initConfig [0] 1)

/-- ... after which the worker nevertheless takes and executes the task. -/
def c9end : Config Nat Nat Nat Nat :=
  runSched [0] wfnNat [Choice.take 0, Choice.finish 0] c9mid

/-- One task, one worker, context cancelled immediately: the worker is
idle and can observe the fired signal. -/
def c9am : Config Nat Nat Nat Nat :=
  runSched [0] wfnNat [Choice.cancel] (initConfig [0] 1)

/-! ### Claims -/

/-- C1: for every non-empty task list, every `fn` and every `maxWorkers`,
any value returned by `RunWorkerPool` has exactly `len(tasks)` entries;
moreover from any reachable configuration — whether or not the
cancellation signal has fired or will fire — the pool can always reach a
terminal configuration (the collector loop completes), and its result then
has exactly `len(tasks)` entries. -/
theorem runWorkerPool_always_full_length (tasks : List T)
    (fn : Bool → T → GoMap K V → Option ε × GoMap K V) (maxWorkers : Int)
    (hne : tasks ≠ []) :
    (∀ (errs : List (Option ε)) (k : Nat),
        RunWorkerPoolRel tasks fn maxWorkers errs k →
          errs.length = tasks.length) ∧
    (∀ c : Config T K V ε, Reachable tasks fn maxWorkers c →
        ∃ c', Relation.ReflTransGen (Step tasks fn) c c' ∧ Terminal tasks c' ∧
          c'.collected.length = tasks.length) := by
  constructor
  · intro errs k h
    rw [RunWorkerPoolRel, if_neg (by simpa using fun h0 => hne (List.length_eq_zero.mp h0))] at h
    obtain ⟨c, _, hT, hcol, _⟩ := h
    rw [← hcol]
    exact hT
  · intro c h
    obtain ⟨c', hrtg, hT⟩ := progress c (inv_reachable h)
    exact ⟨c', hrtg, hT, hT⟩

theorem runWorkerPool_always_full_length_witness :
    ([0] ≠ ([] : List Nat)) ∧
    ∃ c', Relation.ReflTransGen (Step [0] wfnNat) (initConfig [0] 1) c' ∧
      Terminal [0] c' ∧ c'.collected.length = 1 :=
  ⟨by decide,
    (runWorkerPool_always_full_length [0] wfnNat 1 (by decide)).2
      (initConfig [0] 1) Relation.ReflTransGen.refl⟩

/-- C2 (code bug): the call `utils.Clamp(tasksLen, 1, maxWorkers)` passes
`tasksLen` as the clamped value and `maxWorkers` as the upper bound, so
for requested `maxWorkers ≤ 0` and non-empty tasks the effective worker
count is `maxWorkers` itself (≤ 0, spawning zero workers), not 1.  With
the intended argument order `Clamp(maxWorkers, 1, tasksLen)` the same
inputs give 1. -/
theorem clamp_args_swapped_zero_workers :
    effectiveWorkers 1 0 = 0 ∧ numWorkers 1 0 = 0 ∧
    effectiveWorkers 5 (-2) = -2 ∧ numWorkers 5 (-2) = 0 ∧
    Clamp (0 : Int) 1 1 = 1 ∧ Clamp (-2 : Int) 1 5 = 1 := by
  decide

/-- C5: in every reachable configuration the completed `fn` invocations
(`outs`) number at most `len(tasks)`; the tasks handed to workers (`log`,
in dequeue order) form a prefix of `tasks`, so no task slot is dequeued —
hence passed to `fn` — more than once; and the completed plus in-flight
executions are exactly a permutation of the dequeued tasks. -/
theorem fn_at_most_once_per_task (tasks : List T)
    (fn : Bool → T → GoMap K V → Option ε × GoMap K V) (maxWorkers : Int)
    (c : Config T K V ε) (h : Reachable tasks fn maxWorkers c) :
    c.outs.length ≤ tasks.length ∧
    c.log = tasks.take c.log.length ∧ c.log.length ≤ tasks.length ∧
    (c.finLog ++ busyTasks c.workers).Perm c.log := by
  have hInv := inv_reachable h
  have hlp := hInv.fin_perm.length_eq
  rw [List.length_append] at hlp
  have hlog_le : c.log.length ≤ tasks.length := le_trans hInv.log_le hInv.disp_le
  refine ⟨?_, hInv.log_prefix, hlog_le, hInv.fin_perm⟩
  rw [hInv.outs_fin]
  omega

theorem fn_at_most_once_per_task_witness :
    (initConfig [5] 1 : Config Nat Nat Nat Nat).outs.length ≤ 1 ∧
    (initConfig [5] 1 : Config Nat Nat Nat Nat).log =
      [5].take (initConfig [5] 1 : Config Nat Nat Nat Nat).log.length ∧
    (initConfig [5] 1 : Config Nat Nat Nat Nat).log.length ≤ 1 ∧
    ((initConfig [5] 1 : Config Nat Nat Nat Nat).finLog ++
      busyTasks (initConfig [5] 1 : Config Nat Nat Nat Nat).workers).Perm
      (initConfig [5] 1 : Config Nat Nat Nat Nat).log :=
  fn_at_most_once_per_task [5] wfnNat 1 (initConfig [5] 1)
    Relation.ReflTransGen.refl

/-- C4: for an empty task list `RunWorkerPool` returns the empty sequence
(the literal `[]error{}`, allocated before anything is spawned, hence
non-nil in Go) and performs zero `fn` invocations, for every `maxWorkers`
and every `fn` — in particular a nil `fn` is never dereferenced. -/
theorem empty_tasks_empty_result
    (fn : Bool → T → GoMap K V → Option ε × GoMap K V) (maxWorkers : Int)
    (errs : List (Option ε)) (k : Nat)
    (h : RunWorkerPoolRel ([] : List T) fn maxWorkers errs k) :
    errs = [] ∧ k = 0 := by
  simpa [RunWorkerPoolRel] using h

theorem empty_tasks_empty_result_witness :
    ([] : List (Option Nat)) = [] ∧ (0 : Nat) = 0 :=
  empty_tasks_empty_result wfnNat 7 [] 0 (by simp [RunWorkerPoolRel])

/-- C8: for non-empty tasks the effective worker count equals
`len(tasks)` whenever the requested `maxWorkers` exceeds it, and it never
exceeds `len(tasks)` (neither does the number of goroutines spawned). -/
theorem worker_count_clamped_above (tasksLen : Nat) (h : 1 ≤ tasksLen) :
    (∀ mw : Int, (tasksLen : Int) < mw →
        effectiveWorkers tasksLen mw = tasksLen) ∧
    (∀ mw : Int, effectiveWorkers tasksLen mw ≤ (tasksLen : Int)) ∧
    (∀ mw : Int, numWorkers tasksLen mw ≤ tasksLen) := by
  refine ⟨fun mw hmw => ?_, fun mw => ?_, fun mw => ?_⟩ <;>
    simp only [effectiveWorkers, numWorkers, Clamp] <;> omega

theorem worker_count_clamped_above_witness :
    effectiveWorkers 2 100 = 2 ∧ effectiveWorkers 2 (-7) ≤ 2 ∧
      numWorkers 2 100 ≤ 2 :=
  ⟨(worker_count_clamped_above 2 (by decide)).1 100 (by decide),
    by exact_mod_cast (worker_count_clamped_above 2 (by decide)).2.1 (-7),
    (worker_count_clamped_above 2 (by decide)).2.2 100⟩

/-- With zero spawned workers nothing is ever dequeued or executed. -/
theorem w0_inv {tasks : List T}
    {fn : Bool → T → GoMap K V → Option ε × GoMap K V} {maxWorkers : Int}
    {c : Config T K V ε} (h0 : numWorkers tasks.length maxWorkers = 0)
    (h : Reachable tasks fn maxWorkers c) :
    c.workers = [] ∧ c.log = [] ∧ c.outs = [] ∧ c.finLog = [] := by
  induction h with
  | refl => simp [initConfig, h0]
  | tail hr hstep ih =>
    obtain ⟨hws, hlog, houts, hfin⟩ := ih
    cases hstep with
    | cancel h => exact ⟨hws, hlog, houts, hfin⟩
    | dispatchSend h1 h2 h3 => exact ⟨hws, hlog, houts, hfin⟩
    | dispatchCancelled h1 h2 h3 => exact ⟨hws, hlog, houts, hfin⟩
    | dispatchClose h1 h2 => exact ⟨hws, hlog, houts, hfin⟩
    | workerTake pre post s t rest hw hb => rw [hws] at hw; simp at hw
    | workerFinish pre post s t hw hcap => rw [hws] at hw; simp at hw
    | workerCtxDone pre post s hw hc => rw [hws] at hw; simp at hw
    | workerChanClosed pre post s hw hcl hemp => rw [hws] at hw; simp at hw
    | closeOutcomes h h2 => exact ⟨hws, hlog, houts, hfin⟩
    | collectValue o rest hn hb => exact ⟨hws, hlog, houts, hfin⟩
    | collectClosed hn hb hcl => exact ⟨hws, hlog, houts, hfin⟩

/-- C3: for non-empty tasks and requested `maxWorkers ≤ 0` the pool spawns
zero workers, `fn` is never invoked (nothing is ever dequeued or
completed), and any returned sequence is exactly `len(tasks)` nil values,
all drained by the collector from the closed outcome channel. -/
theorem zero_workers_all_nil (tasks : List T)
    (fn : Bool → T → GoMap K V → Option ε × GoMap K V) (maxWorkers : Int)
    (hne : tasks ≠ []) (hmw : maxWorkers ≤ 0) :
    numWorkers tasks.length maxWorkers = 0 ∧
    ∀ c : Config T K V ε, Reachable tasks fn maxWorkers c →
      c.outs = [] ∧ c.log = [] ∧
      (Terminal tasks c → c.collected = List.replicate tasks.length none) := by
  have hlen : 1 ≤ tasks.length := by
    cases tasks with
    | nil => exact absurd rfl hne
    | cons a as => simp
  have h0 : numWorkers tasks.length maxWorkers = 0 := by
    simp only [numWorkers, effectiveWorkers, Clamp]
    omega
  refine ⟨h0, fun c h => ?_⟩
  obtain ⟨hws, hlog, houts, hfin⟩ := w0_inv h0 h
  have hInv := inv_reachable h
  refine ⟨houts, hlog, fun hT => ?_⟩
  have hcol := hInv.out_split_col
  rw [houts] at hcol
  simp only [List.take_nil, List.nil_append] at hcol
  have hn : c.nils = tasks.length := by
    have := congrArg List.length hcol
    rw [List.length_replicate] at this
    rw [← this]
    exact hT
  rw [hcol, hn]

theorem zero_workers_all_nil_witness :
    numWorkers 1 0 = 0 ∧ c3run.outs = [] ∧ c3run.log = [] ∧
      c3run.collected = List.replicate 1 none := by
  have h := zero_workers_all_nil [0] wfnNat 0 (by decide) (by decide)
  have h2 := h.2 c3run (runSched_reachable [0] wfnNat 0 c3sched)
  exact ⟨h.1, h2.1, h2.2.1, h2.2.2 (by decide)⟩

/-- C6: the per-task function that increments a counter key in the
worker's store and reports the value it read, mirroring the
`WorkerStorePersistence` test. -/
def fnCounter : Bool → Nat → GoMap String Nat → Option Nat × GoMap String Nat :=
  fun _ _ store =>
    (some (store.getD "sum" 0 + 1), store.insert "sum" (store.getD "sum" 0 + 1))

theorem procTasks_fnCounter (l : List Nat) (m : GoMap String Nat) :
    (procTasks fnCounter l m).1 =
      (List.range l.length).map (fun i => some (m.getD "sum" 0 + i + 1)) := by
  induction l generalizing m with
  | nil => rfl
  | cons a as ih =>
    have hget : (m.insert "sum" (m.getD "sum" 0 + 1)).getD "sum" 0 =
        m.getD "sum" 0 + 1 := by
      simp [GoMap.insert, GoMap.getD]
    simp only [procTasks, fnCounter, List.length_cons]
    rw [ih, hget, List.range_succ_eq_map, List.map_cons, List.map_map]
    congr 1
    refine List.map_congr_left ?_
    intro i _
    simp only [Function.comp_apply, Option.some.injEq]
    omega

/-- C6: with effective worker count 1 and `N` tasks each incrementing a
counter in the worker-local store, the counter reads `i` when the `i`-th
task executes (in particular `N` at the `N`-th): the single worker keeps
one store, never reset, across all tasks. -/
theorem single_worker_counter (N : Nat) (_hN : N ≠ 0)
    (c : Config Nat String Nat Nat)
    (h : Reachable (List.range N) fnCounter 1 c)
    (hT : Terminal (List.range N) c) (hc : c.cancelled = false) :
    c.collected = (List.range N).map (fun i => some (i + 1)) := by
  have hw1 : numWorkers (List.range N).length 1 = 1 := by
    simp only [numWorkers, effectiveWorkers, Clamp, List.length_range]
    omega
  have hcol := solo_terminal_collected hw1 h hT hc
  rw [hcol, procTasks_fnCounter]
  simp [GoMap.empty, GoMap.getD]

/-- Complete single-worker run over `List.range 1` with `fnCounter`. -/
def c6sched : List Choice :=
  [Choice.dsend, Choice.dclose, Choice.take 0, Choice.finish 0,
    Choice.wclosed 0, Choice.closeOut, Choice.collect]

def c6run : Config Nat String Nat Nat :=
  runSched (List.range 1) fnCounter c6sched (initConfig (List.range 1) 1)

theorem single_worker_counter_witness :
    Terminal (List.range 1) c6run ∧ c6run.cancelled = false ∧
      c6run.collected = (List.range 1).map (fun i => some (i + 1)) :=
  ⟨by decide, by decide,
    single_worker_counter 1 (by decide) c6run
      (runSched_reachable (List.range 1) fnCounter 1 c6sched)
      (by decide) (by decide)⟩

/-- C7: the tasks of the `TaskCompletionAndErrorCounting` test. -/
def tasksTen : List Nat := [1, 2, 3, 4, 5, 6, 7, 8, 9, 10]

/-- C7: the error returned by the test's `fn` for each task. -/
def gEven : Nat → Option String :=
  fun t => if t % 2 = 0 then some (String.append "error-on-" (toString t)) else none

/-- C7: the test's `fn`: errors exactly on even tasks, ignores the store. -/
def fnEven : Bool → Nat → GoMap String Nat → Option String × GoMap String Nat :=
  fun _ t store => (gEven t, store)

/-- C7: absent cancellation, every error value returned by `fn` is passed
through to the result unmodified (the result is a permutation of `fn`'s
outputs over all tasks); concretely for tasks `1..10` with `fn` erroring
on evens, the result has exactly 5 non-nil entries and `fn` ran exactly
10 times. -/
theorem errors_passed_through (c : Config Nat String Nat String)
    (h : Reachable tasksTen fnEven 3 c) (hT : Terminal tasksTen c)
    (hc : c.cancelled = false) :
    c.collected.Perm (tasksTen.map gEven) ∧
    c.collected.countP (fun o => o.isSome) = 5 ∧
    c.outs.length = 10 := by
  have hInv := inv_reachable h
  have hw : 0 < numWorkers tasksTen.length 3 := by decide
  obtain ⟨hvals, houts, hcolout, hlog, hfin, hbt⟩ := nc_terminal_facts hInv hc hw hT
  have hmap := outs_map gEven (fun b t s => rfl) h
  have hperm : c.collected.Perm (tasksTen.map gEven) := by
    rw [hcolout, hmap]
    exact hfin.map gEven
  refine ⟨hperm, ?_, ?_⟩
  · rw [List.Perm.countP_eq _ hperm]
    decide
  · rw [houts]
    rfl

/-- Complete three-worker run over `tasksTen` in which worker 0 happens to
execute every task. -/
def c7sched : List Choice :=
  [Choice.dsend, Choice.dsend, Choice.dsend, Choice.dsend, Choice.dsend,
    Choice.dsend, Choice.dsend, Choice.dsend, Choice.dsend, Choice.dsend,
    Choice.dclose,
    Choice.take 0, Choice.finish 0, Choice.take 0, Choice.finish 0,
    Choice.take 0, Choice.finish 0, Choice.take 0, Choice.finish 0,
    Choice.take 0, Choice.finish 0, Choice.take 0, Choice.finish 0,
    Choice.take 0, Choice.finish 0, Choice.take 0, Choice.finish 0,
    Choice.take 0, Choice.finish 0, Choice.take 0, Choice.finish 0,
    Choice.wclosed 0, Choice.wclosed 1, Choice.wclosed 2, Choice.closeOut,
    Choice.collect, Choice.collect, Choice.collect, Choice.collect,
    Choice.collect, Choice.collect, Choice.collect, Choice.collect,
    Choice.collect, Choice.collect]

def c7run : Config Nat String Nat String :=
  runSched tasksTen fnEven c7sched (initConfig tasksTen 3)

set_option maxRecDepth 40000 in
theorem errors_passed_through_witness :
    Terminal tasksTen c7run ∧ c7run.cancelled = false ∧
      c7run.collected.countP (fun o => o.isSome) = 5 ∧
      c7run.outs.length = 10 := by
  refine ⟨by decide, by decide, ?_, ?_⟩
  · exact (errors_passed_through c7run
      (runSched_reachable tasksTen fnEven 3 c7sched) (by decide) (by decide)).2.1
  · exact (errors_passed_through c7run
      (runSched_reachable tasksTen fnEven 3 c7sched) (by decide) (by decide)).2.2

/-- C9, counterexample: it is *not* true that once the cancellation signal
has fired no new task execution starts.  Both the dispatcher's and the
workers' `select` may choose a ready send/receive even when `ctx.Done()`
is ready, so a worker can pull and execute a queued task strictly after
cancellation: witnessed by a run over one task where the context is
cancelled while the task sits in the queue and the worker then takes and
executes it. -/
theorem no_new_starts_after_cancel_false :
    ¬ (∀ (tasks : List Nat)
          (fn : Bool → Nat → GoMap Nat Nat → Option Nat × GoMap Nat Nat)
          (mw : Int) (c c' : Config Nat Nat Nat Nat),
        Reachable tasks fn mw c → c.cancelled = true →
        Relation.ReflTransGen (Step tasks fn) c c' →
        c'.log.length = c.log.length) := by
  intro hclaim
  have h := hclaim [0] wfnNat 1 c9mid c9end
    (runSched_reachable [0] wfnNat 1 [Choice.dsend, Choice.cancel])
    (by decide)
    (runSched_sound [0] wfnNat [Choice.take 0, Choice.finish 0] c9mid)
  revert h
  decide

/-- C9, amended: once the cancellation signal has fired, an idle worker
*may* take the `ctx.Done()` branch and exit immediately — invoking `fn`
on no further task and writing nothing — and in every reachable
configuration each outcome ever written corresponds to a task execution
that actually started (outcomes + in-flight executions = dequeued tasks);
but the code does not guarantee that no new task execution starts after
cancellation (see the counterexample). -/
theorem cancel_observed_worker_exits_cleanly (tasks : List T)
    (fn : Bool → T → GoMap K V → Option ε × GoMap K V) (maxWorkers : Int) :
    (∀ (c : Config T K V ε) (pre post : List (WStatus T K V)) (s : GoMap K V),
      c.workers = pre ++ WStatus.idle s :: post → c.cancelled = true →
      ∃ c', Step tasks fn c c' ∧ c'.workers = pre ++ WStatus.exited :: post ∧
        c'.outs = c.outs ∧ c'.log = c.log ∧ c'.collected = c.collected ∧
        c'.outBuf = c.outBuf) ∧
    (∀ c : Config T K V ε, Reachable tasks fn maxWorkers c →
      c.outs.length + (busyTasks c.workers).length = c.log.length) := by
  constructor
  · intro c pre post s hw hc
    exact ⟨_, Step.workerCtxDone c pre post s hw hc, rfl, rfl, rfl, rfl, rfl⟩
  · intro c h
    have hInv := inv_reachable h
    have hpl := hInv.fin_perm.length_eq
    rw [List.length_append] at hpl
    rw [hInv.outs_fin]
    omega

theorem cancel_observed_worker_exits_cleanly_witness :
    (∃ c', Step [0] wfnNat c9am c' ∧
      c'.workers = [] ++ WStatus.exited :: [] ∧ c'.outs = c9am.outs ∧
      c'.log = c9am.log ∧ c'.collected = c9am.collected ∧
      c'.outBuf = c9am.outBuf) ∧
    (initConfig [0] 1 : Config Nat Nat Nat Nat).outs.length +
      (busyTasks (initConfig [0] 1 : Config Nat Nat Nat Nat).workers).length =
      (initConfig [0] 1 : Config Nat Nat Nat Nat).log.length :=
  ⟨(cancel_observed_worker_exits_cleanly [0] wfnNat 1).1 c9am [] []
      GoMap.empty (by decide) (by decide),
    (cancel_observed_worker_exits_cleanly [0] wfnNat 1).2 (initConfig [0] 1)
      Relation.ReflTransGen.refl⟩

/-- C10: with effective worker count 1 and an uncancelled context, the
returned sequence is `fn` applied to the tasks in submission order (with
the single worker's store threaded through): the `i`-th outcome is `fn`'s
result on the `i`-th task. -/
theorem single_worker_in_order (tasks : List T)
    (fn : Bool → T → GoMap K V → Option ε × GoMap K V) (maxWorkers : Int)
    (hw1 : numWorkers tasks.length maxWorkers = 1)
    (c : Config T K V ε) (h : Reachable tasks fn maxWorkers c)
    (hT : Terminal tasks c) (hc : c.cancelled = false) :
    c.collected = (procTasks fn tasks GoMap.empty).1 :=
  solo_terminal_collected hw1 h hT hc

theorem single_worker_in_order_witness :
    numWorkers 2 1 = 1 ∧ Terminal [3, 4] c10run ∧
      c10run.cancelled = false ∧
      c10run.collected = (procTasks wfnNat [3, 4] GoMap.empty).1 :=
  ⟨by decide, by decide, by decide,
    single_worker_in_order [3, 4] wfnNat 1 (by decide) c10run
      (runSched_reachable [3, 4] wfnNat 1 c10sched) (by decide) (by decide)⟩

end WorkerPool
